import Mathlib

/-!
Verification development for the DeDeGo translation service (`src/app.py`).

The service exposes `POST /api/translate`. The handler `translate_text`:
  * validates the request text (`request.text.strip()` non-empty, raw
    `len(request.text) <= 1000`),
  * calls the LLM provider and receives a raw text reply,
  * strips the reply (`.strip()`), removes markdown code fences when the
    stripped reply starts with three backticks followed by `json`
    (global `str.replace` of the three patterns), parses the result with
    `json.loads`,
  * extracts `translated` (default `""`) and `terms` (default `[]`) and
    builds `TermExplanation` records (pydantic: `term` and `meaning`
    required strings, `original` defaults to `""`),
  * maps failures to HTTP errors: 400 for validation, a dedicated 500
    for JSON parse failures, and a generic 500 for any other exception
    (including pydantic validation errors raised while building the
    response).

Everything below is a shallow embedding of that pipeline over
`List Char`.  Strings are lists of characters; `json.loads` is modelled
by an executable JSON parser (`parseJson`) following Python's `json`
grammar (objects, arrays, strings with escapes, numbers kept as their
lexemes, `true`/`false`/`null`, and the `NaN`/`Infinity`/`-Infinity`
constants Python accepts by default).
-/

abbrev Chars := List Char

/-- The backtick character, written via its code point. -/
def bq : Char := Char.ofNat 96

/-- Whitespace stripped by Python's `str.strip()` (ASCII subset:
space, tab, newline, carriage return, vertical tab, form feed). -/
def isPyWs (c : Char) : Bool :=
  c = ' ' || c = '\t' || c = '\n' || c = '\r' || c = '\x0b' || c = '\x0c'

/-- Whitespace skipped by Python's `json` parser (only space, tab,
newline, carriage return). -/
def isJsonWs (c : Char) : Bool :=
  c = ' ' || c = '\t' || c = '\n' || c = '\r'

/-- Model of Python `str.strip()`: drop leading and trailing whitespace. -/
def pyStrip (s : Chars) : Chars :=
  ((s.dropWhile isPyWs).reverse.dropWhile isPyWs).reverse

/-- One left-to-right scan of Python `str.replace(p, r)`: at each
position, if the pattern is a prefix, emit the replacement and continue
after the matched occurrence; otherwise keep the character.  `fuel`
bounds the recursion; every call below supplies `fuel ≥ length`. -/
def replGo (p r : Chars) : Nat → Chars → Chars
  | _, [] => []
  | 0, cs => cs
  | fuel + 1, c :: cs =>
    if p.isPrefixOf (c :: cs) then r ++ replGo p r fuel ((c :: cs).drop p.length)
    else c :: replGo p r fuel cs

/-- Model of Python `s.replace(p, r)` (for non-empty patterns `p`). -/
def pyReplace (s p r : Chars) : Chars := replGo p r s.length s

/-- Does `p` occur as a contiguous substring of `s`?  (Executable.) -/
def occurs (p : Chars) : Chars → Bool
  | [] => p.isPrefixOf ([] : Chars)
  | c :: cs => p.isPrefixOf (c :: cs) || occurs p cs

/-- `t` is a (contiguous) suffix of `s`. -/
def isSuffOf (t s : Chars) : Prop := ∃ u, u ++ t = s

/-- The closing fence of a wrapped reply. -/
def endFence : Chars := "\n```".toList

/-- JSON values as produced by `json.loads`.  Numeric tokens are kept
as their lexemes (the service never inspects numbers).  Objects keep
their key/value pairs in source order; lookups take the last binding,
matching Python dict construction where later duplicate keys win. -/
inductive Json where
  | null : Json
  | bool (b : Bool) : Json
  | num (lexeme : Chars) : Json
  | str (s : Chars) : Json
  | arr (elems : List Json) : Json
  | obj (fields : List (Chars × Json)) : Json
deriving Repr

/-- Python `dict` lookup for an object built from `fields` in order:
the last binding of a duplicated key wins. -/
def dictGet (fields : List (Chars × Json)) (k : Chars) : Option Json :=
  fields.foldl (fun acc kv => if kv.1 = k then some kv.2 else acc) none

def skipWs (cs : Chars) : Chars := cs.dropWhile isJsonWs

def hexVal (c : Char) : Option Nat :=
  if '0' ≤ c ∧ c ≤ '9' then some (c.toNat - 48)
  else if 'a' ≤ c ∧ c ≤ 'f' then some (c.toNat - 87)
  else if 'A' ≤ c ∧ c ≤ 'F' then some (c.toNat - 55)
  else none

def escChar (c : Char) : Option Char :=
  if c = '"' then some '"'
  else if c = '\\' then some '\\'
  else if c = '/' then some '/'
  else if c = 'b' then some (Char.ofNat 8)
  else if c = 'f' then some (Char.ofNat 12)
  else if c = 'n' then some '\n'
  else if c = 'r' then some '\r'
  else if c = 't' then some '\t'
  else none

/-- Body of a JSON string literal, after the opening quote: returns the
decoded characters and the input after the closing quote.  Mirrors
Python's strict scanner: unescaped control characters are rejected,
only the standard escapes and `\uXXXX` are accepted.  (`\uXXXX` is
decoded with `Char.ofNat`; surrogate pairing is not modelled, the
service never inspects such characters.) -/
def parseSB : Nat → Chars → Option (Chars × Chars)
  | 0, _ => none
  | fuel + 1, cs =>
    match cs with
    | [] => none
    | c :: rest =>
      if c = '"' then some ([], rest)
      else if c = '\\' then
        match rest with
        | [] => none
        | e :: rest2 =>
          if e = 'u' then
            match rest2 with
            | a :: b :: c2 :: d :: rest3 =>
              match hexVal a, hexVal b, hexVal c2, hexVal d with
              | some ha, some hb, some hc, some hd =>
                match parseSB fuel rest3 with
                | some (s, r) =>
                  some (Char.ofNat (((ha * 16 + hb) * 16 + hc) * 16 + hd) :: s, r)
                | none => none
              | _, _, _, _ => none
            | _ => none
          else
            match escChar e with
            | some ec =>
              match parseSB fuel rest2 with
              | some (s, r) => some (ec :: s, r)
              | none => none
            | none => none
      else if c.toNat < 32 then none
      else
        match parseSB fuel rest with
        | some (s, r) => some (c :: s, r)
        | none => none

/-- Exponent part of Python's JSON `NUMBER_RE`: `([eE][-+]?[0-9]+)?`.
If the optional group does not match, the lexeme is unchanged and the
input is left where the group started. -/
def parseExpPart (lex : Chars) (r : Chars) : Chars × Chars :=
  match r with
  | e :: r2 =>
    if e = 'e' ∨ e = 'E' then
      match r2 with
      | c :: r3 =>
        if c = '+' ∨ c = '-' then
          let ds := r3.takeWhile Char.isDigit
          if ds.isEmpty then (lex, r) else (lex ++ e :: c :: ds, r3.dropWhile Char.isDigit)
        else
          let ds := r2.takeWhile Char.isDigit
          if ds.isEmpty then (lex, r) else (lex ++ e :: ds, r2.dropWhile Char.isDigit)
      | [] => (lex, r)
    else (lex, r)
  | [] => (lex, r)

/-- Fraction part of `NUMBER_RE`: `(\.[0-9]+)?`, then the exponent. -/
def parseFracExp (lex : Chars) (r : Chars) : Chars × Chars :=
  match r with
  | c :: r2 =>
    if c = '.' then
      let ds := r2.takeWhile Char.isDigit
      if ds.isEmpty then parseExpPart lex r
      else parseExpPart (lex ++ '.' :: ds) (r2.dropWhile Char.isDigit)
    else parseExpPart lex r
  | [] => parseExpPart lex r

/-- Integer part of `NUMBER_RE`: `(0|[1-9][0-9]*)` followed by the
optional fraction and exponent. -/
def numBody (cs : Chars) : Option (Chars × Chars) :=
  match cs with
  | c :: r =>
    if c = '0' then some (parseFracExp ['0'] r)
    else if c.isDigit then
      some (parseFracExp (c :: r.takeWhile Char.isDigit) (r.dropWhile Char.isDigit))
    else none
  | [] => none

/-- A JSON number token `-?(0|[1-9][0-9]*)(\.[0-9]+)?([eE][-+]?[0-9]+)?`,
returned as its lexeme together with the rest of the input. -/
def parseNumber (cs : Chars) : Option (Chars × Chars) :=
  match cs with
  | c :: cs1 =>
    if c = '-' then
      match numBody cs1 with
      | some (lex, r) => some ('-' :: lex, r)
      | none => none
    else numBody cs
  | [] => none

/-- One JSON value, as parsed by Python's `json` scanner: skips leading
JSON whitespace, then dispatches on the first character.  Arrays and
objects are parsed by re-entering `parseValue` on the remaining items
with a re-synthesised opening bracket, which reproduces the grammar
`'[' ws ']' | '[' value (',' value)* ']'` (a trailing comma is
rejected, as in Python).  `fuel ≥ length + 1` suffices. -/
def parseValue : Nat → Chars → Option (Json × Chars)
  | 0, _ => none
  | fuel + 1, cs =>
    match skipWs cs with
    | [] => none
    | c :: cs1 =>
      if c = 'n' then
        if cs1.take 3 = ['u', 'l', 'l'] then some (.null, cs1.drop 3) else none
      else if c = 't' then
        if cs1.take 3 = ['r', 'u', 'e'] then some (.bool true, cs1.drop 3) else none
      else if c = 'f' then
        if cs1.take 4 = ['a', 'l', 's', 'e'] then some (.bool false, cs1.drop 4) else none
      else if c = 'N' then
        if cs1.take 2 = ['a', 'N'] then some (.num ['N', 'a', 'N'], cs1.drop 2) else none
      else if c = 'I' then
        if cs1.take 7 = ['n', 'f', 'i', 'n', 'i', 't', 'y'] then
          some (.num ('I' :: ['n', 'f', 'i', 'n', 'i', 't', 'y']), cs1.drop 7)
        else none
      else if c = '"' then
        match parseSB fuel cs1 with
        | some (s, r) => some (.str s, r)
        | none => none
      else if c = '[' then
        match skipWs cs1 with
        | [] => none
        | d :: r0 =>
          if d = ']' then some (.arr [], r0)
          else
            match parseValue fuel cs1 with
            | some (v, r) =>
              match skipWs r with
              | [] => none
              | d1 :: r2 =>
                if d1 = ']' then some (.arr [v], r2)
                else if d1 = ',' then
                  match skipWs r2 with
                  | [] => none
                  | d2 :: _ =>
                    if d2 = ']' then none
                    else
                      match parseValue fuel ('[' :: r2) with
                      | some (.arr vs, r3) => some (.arr (v :: vs), r3)
                      | _ => none
                else none
            | none => none
      else if c = '\x7b' then
        match skipWs cs1 with
        | [] => none
        | d :: r0 =>
          if d = '\x7d' then some (.obj [], r0)
          else if d = '"' then
            match parseSB fuel r0 with
            | some (k, r1) =>
              match skipWs r1 with
              | [] => none
              | d1 :: r2 =>
                if d1 = ':' then
                  match parseValue fuel r2 with
                  | some (v, r3) =>
                    match skipWs r3 with
                    | [] => none
                    | d3 :: r4 =>
                      if d3 = '\x7d' then some (.obj [(k, v)], r4)
                      else if d3 = ',' then
                        match skipWs r4 with
                        | [] => none
                        | d4 :: _ =>
                          if d4 = '\x7d' then none
                          else
                            match parseValue fuel ('\x7b' :: r4) with
                            | some (.obj kvs, r5) => some (.obj ((k, v) :: kvs), r5)
                            | _ => none
                      else none
                  | none => none
                else none
            | none => none
          else none
      else if c = '-' then
        match cs1 with
        | c2 :: cs2 =>
          if c2 = 'I' then
            if cs2.take 7 = ['n', 'f', 'i', 'n', 'i', 't', 'y'] then
              some (.num ('-' :: 'I' :: ['n', 'f', 'i', 'n', 'i', 't', 'y']), cs2.drop 7)
            else none
          else
            match parseNumber (c :: cs1) with
            | some (lex, r) => some (.num lex, r)
            | none => none
        | [] =>
          match parseNumber (c :: cs1) with
          | some (lex, r) => some (.num lex, r)
          | none => none
      else if c.isDigit then
        match parseNumber (c :: cs1) with
        | some (lex, r) => some (.num lex, r)
        | none => none
      else none

/-- Model of `json.loads`: one JSON document, with nothing but JSON
whitespace allowed after it; `none` models a raised `JSONDecodeError`. -/
def parseJson (cs : Chars) : Option Json :=
  match parseValue (cs.length + 1) cs with
  | some (v, r) => if (skipWs r).isEmpty then some v else none
  | none => none

/- ----------------------------------------------------------------
   The translate endpoint (`translate_text` in `src/app.py`).
   ---------------------------------------------------------------- -/

inductive Direction where
  | to_pangyo : Direction
  | to_korean : Direction
deriving DecidableEq, Repr

/-- Request body, after FastAPI's schema validation (`text` a string,
`direction` one of the two literals). -/
structure TranslateRequest where
  text : Chars
  direction : Direction
deriving DecidableEq, Repr

/-- `TermExplanation` pydantic model: `term` and `meaning` required,
`original` defaults to the empty string. -/
structure TermExplanation where
  term : Chars
  meaning : Chars
  original : Chars
deriving DecidableEq, Repr

/-- `TranslateResponse` pydantic model. -/
structure TranslateResponse where
  original : Chars
  translated : Chars
  direction : Direction
  terms : List TermExplanation
deriving DecidableEq, Repr

/-- The HTTP failures the handler can produce: the two 400 validation
errors carry their detail message; `parseError` is the 500 raised when
`json.loads` fails; `internalError` is the catch-all 500 from the
outer `except Exception` handler. -/
inductive ApiError where
  | badRequest (detail : Chars) : ApiError
  | parseError : ApiError
  | internalError : ApiError
deriving DecidableEq, Repr

def ApiError.status : ApiError → Nat
  | .badRequest _ => 400
  | .parseError => 500
  | .internalError => 500

/-- Detail message of the empty-text 400 (`"텍스트를 입력해주세요"`). -/
def emptyTextMsg : Chars := "텍스트를 입력해주세요".toList

/-- Detail message of the over-length 400. -/
def lengthMsg : Chars := "텍스트가 너무 깁니다. 1000자 이내로 입력해주세요.".toList

/-- Input validation of `translate_text`: empty-after-strip text is
rejected first, then raw length above 1000. -/
def validate (req : TranslateRequest) : Option ApiError :=
  if pyStrip req.text = [] then some (.badRequest emptyTextMsg)
  else if 1000 < req.text.length then some (.badRequest lengthMsg)
  else none

def fenceJsonTag : Chars := "```json".toList
def fenceJsonNl : Chars := "```json\n".toList
def fenceNl : Chars := "```\n".toList
def fencePlain : Chars := "```".toList

/-- The fence-removal step: when the (already stripped) reply starts
with ` ```json `, globally replace ` ```json\n `, then ` ```\n `,
then ` ``` ` each by the empty string. -/
def fenceReplace (t : Chars) : Chars :=
  pyReplace (pyReplace (pyReplace t fenceJsonNl []) fenceNl []) fencePlain []

/-- The reply text handed to `json.loads`: the raw provider reply
stripped, then fence-stripped when it starts with ` ```json `. -/
def strippedText (content : Chars) : Chars :=
  let t := pyStrip content
  if fenceJsonTag.isPrefixOf t then fenceReplace t else t

/-- `result.get("translated", "")` followed by pydantic validation of
the `translated: str` field: absent means `""`, a non-string value is
a validation error (`none`, surfacing as the generic 500). -/
def getTranslated (fields : List (Chars × Json)) : Option Chars :=
  match dictGet fields "translated".toList with
  | none => some []
  | some (.str s) => some s
  | some _ => none

/-- `TermExplanation(**term)`: `term` must be a JSON object whose
`term` and `meaning` fields are present strings; `original` defaults
to `""` when absent and must be a string when present.  Anything else
raises (pydantic `ValidationError` or `TypeError`), modelled as `none`. -/
def mkTermExplanation (j : Json) : Option TermExplanation :=
  match j with
  | .obj fields =>
    match dictGet fields "term".toList, dictGet fields "meaning".toList with
    | some (.str t), some (.str m) =>
      match dictGet fields "original".toList with
      | none => some ⟨t, m, []⟩
      | some (.str o) => some ⟨t, m, o⟩
      | some _ => none
    | _, _ => none
  | _ => none

/-- Iterating `result.get("terms", [])` in the list comprehension: a
JSON array yields its elements; iterating an empty string or empty
object yields nothing; any other value either is not iterable or
yields items that `TermExplanation(**term)` rejects with a `TypeError`
— all modelled as `none` (generic 500). -/
def getTermsItems (j : Json) : Option (List Json) :=
  match j with
  | .arr xs => some xs
  | .str s => if s.isEmpty then some [] else none
  | .obj fields => if fields.isEmpty then some [] else none
  | _ => none

/-- `terms=[TermExplanation(**term) for term in result.get("terms", [])]`:
absent key defaults to the empty list; one failing element aborts the
whole comprehension. -/
def getTerms (fields : List (Chars × Json)) : Option (List TermExplanation) :=
  match dictGet fields "terms".toList with
  | none => some []
  | some j =>
    match getTermsItems j with
    | some items => items.mapM mkTermExplanation
    | none => none

/-- Building the response body from the parsed reply object. -/
def extractResult (fields : List (Chars × Json)) :
    Option (Chars × List TermExplanation) :=
  match getTranslated fields with
  | none => none
  | some tr =>
    match getTerms fields with
    | none => none
    | some ts => some (tr, ts)

/-- Lines 194–217 of `src/app.py`: strip, remove fences, `json.loads`
(failure → the dedicated 500), then `result.get(...)`/pydantic
construction (failure → the generic 500). -/
def normalizeReply (content : Chars) : Except ApiError (Chars × List TermExplanation) :=
  match parseJson (strippedText content) with
  | none => .error .parseError
  | some (.obj fields) =>
    match extractResult fields with
    | some res => .ok res
    | none => .error .internalError
  | some _ => .error .internalError

/-- The translate endpoint as a function of the request and of the raw
text reply the provider would return for it: validation, then
normalization, then the echoing response. -/
def translate_text (req : TranslateRequest) (reply : Chars) :
    Except ApiError TranslateResponse :=
  match validate req with
  | some e => .error e
  | none =>
    match normalizeReply reply with
    | .error e => .error e
    | .ok (tr, ts) => .ok ⟨req.text, tr, req.direction, ts⟩

example : parseJson "\x7b\"a\": 1\x7d".toList = some (.obj [("a".toList, .num ['1'])]) := by rfl
example : parseJson "[1, 2]".toList = some (.arr [.num ['1'], .num ['2']]) := by rfl
example : parseJson "nope".toList = none := by rfl
example : parseJson " \"a\\n\" ".toList = some (.str ['a', '\n']) := by rfl
example : parseJson "[1,]".toList = none := by rfl
example : parseJson "-1.5e+2".toList = some (.num "-1.5e+2".toList) := by rfl
example : parseJson "01".toList = none := by rfl
example : pyStrip "  ab ".toList = "ab".toList := by decide
example : pyReplace "xabxaby".toList "ab".toList [] = "xxy".toList := by decide
example :
    strippedText "```json\n\x7b\"a\": 1\x7d\n```".toList = "\x7b\"a\": 1\x7d\n".toList := by
  decide

/- ----------------------------------------------------------------
   Basic facts about `pyStrip` and `validate`.
   ---------------------------------------------------------------- -/

theorem pyStrip_eq_nil_iff {t : Chars} : pyStrip t = [] ↔ ∀ c ∈ t, isPyWs c := by
  unfold pyStrip
  rw [List.reverse_eq_nil_iff, List.dropWhile_eq_nil_iff]
  constructor
  · intro h c hc
    rcases List.mem_append.1 ((List.takeWhile_append_dropWhile isPyWs t) ▸ hc) with h1 | h1
    · exact List.mem_takeWhile_imp h1
    · exact h _ (List.mem_reverse.2 h1)
  · intro h c hc
    apply h
    have hc' := List.mem_reverse.1 hc
    have : c ∈ t.takeWhile isPyWs ++ t.dropWhile isPyWs :=
      List.mem_append.2 (Or.inr hc')
    rwa [List.takeWhile_append_dropWhile] at this

theorem pyStrip_eq_self_of_ends (t : Chars)
    (h1 : ∀ c, t.head? = some c → isPyWs c = false)
    (h2 : ∀ c, t.reverse.head? = some c → isPyWs c = false) : pyStrip t = t := by
  unfold pyStrip
  have hd : t.dropWhile isPyWs = t := by
    cases t with
    | nil => rfl
    | cons c cs => rw [List.dropWhile_cons_of_neg (by simp [h1 c rfl])]
  rw [hd]
  have hr : t.reverse.dropWhile isPyWs = t.reverse := by
    cases ht : t.reverse with
    | nil => rfl
    | cons c cs =>
      rw [List.dropWhile_cons_of_neg (by simp [h2 c (by rw [ht]; rfl)])]
  rw [hr, List.reverse_reverse]

theorem pyStrip_eq_self_of_all (t : Chars) (h : ∀ c ∈ t, isPyWs c = false) :
    pyStrip t = t := by
  apply pyStrip_eq_self_of_ends
  · intro c hc
    cases t with
    | nil => cases hc
    | cons a as =>
      simp only [List.head?_cons, Option.some_inj] at hc
      exact h c (hc ▸ List.mem_cons_self a as)
  · intro c hc
    cases ht : t.reverse with
    | nil => rw [ht] at hc; cases hc
    | cons a as =>
      rw [ht] at hc
      simp only [List.head?_cons, Option.some_inj] at hc
      subst hc
      exact h a (List.mem_reverse.1 (ht ▸ List.mem_cons_self a as))

theorem pyStrip_append_ws (t w : Chars) (hw : ∀ c ∈ w, isPyWs c) :
    pyStrip (t ++ w) = pyStrip t := by
  by_cases hd : t.dropWhile isPyWs = []
  · have ht : ∀ c ∈ t, isPyWs c := List.dropWhile_eq_nil_iff.1 hd
    have hall : ∀ c ∈ t ++ w, isPyWs c := by
      intro c hc
      rcases List.mem_append.1 hc with h | h
      · exact ht c h
      · exact hw c h
    rw [pyStrip_eq_nil_iff.2 hall, pyStrip_eq_nil_iff.2 ht]
  · unfold pyStrip
    rw [List.dropWhile_append, if_neg (by simpa using hd)]
    rw [List.reverse_append, List.dropWhile_append_of_pos (by simpa using hw)]

theorem validate_eq_none_iff (req : TranslateRequest) :
    validate req = none ↔ (pyStrip req.text ≠ [] ∧ req.text.length ≤ 1000) := by
  unfold validate
  split_ifs with h1 h2
  · simp [h1]
  · constructor
    · intro h; exact nomatch h
    · rintro ⟨-, h3⟩; omega
  · exact ⟨fun _ => ⟨h1, by omega⟩, fun _ => rfl⟩

theorem replicate_length_eq (n : Nat) (a : Char) : (List.replicate n a).length = n :=
  List.length_replicate n a

/-- C3: a request whose text has raw length 1001 always yields a 400
response, for every direction and every provider reply; a request
whose text has length exactly 1000 is never rejected by the length
check (its 400 detail can only be the independent empty-text rule),
and it passes validation outright whenever that emptiness rule does
not apply. -/
theorem length_boundary_validation :
    (∀ (req : TranslateRequest) (reply : Chars), req.text.length = 1001 →
      ∃ d, translate_text req reply = .error (.badRequest d) ∧
        (ApiError.badRequest d).status = 400) ∧
    (∀ req : TranslateRequest, req.text.length = 1000 →
      validate req ≠ some (.badRequest lengthMsg)) ∧
    (∀ req : TranslateRequest, req.text.length = 1000 →
      pyStrip req.text ≠ [] → validate req = none) := by
  refine ⟨?_, ?_, ?_⟩
  · intro req reply h
    have hv : ∃ d, validate req = some (.badRequest d) := by
      unfold validate
      split_ifs with h1 h2
      · exact ⟨_, rfl⟩
      · exact ⟨_, rfl⟩
      · omega
    obtain ⟨d, hd⟩ := hv
    exact ⟨d, by simp [translate_text, hd], rfl⟩
  · intro req h hcontra
    unfold validate at hcontra
    split_ifs at hcontra with h1 h2
    · exact absurd hcontra (by decide)
    · omega
  · intro req h hs
    exact (validate_eq_none_iff req).2 ⟨hs, by omega⟩

theorem length_boundary_validation_witness :
    (∃ d, translate_text ⟨List.replicate 1001 'a', .to_korean⟩ "\x7b\x7d".toList =
        .error (.badRequest d) ∧ (ApiError.badRequest d).status = 400) ∧
    validate ⟨List.replicate 1000 'a', .to_korean⟩ ≠ some (.badRequest lengthMsg) ∧
    validate ⟨List.replicate 1000 'a', .to_korean⟩ = none := by
  refine ⟨length_boundary_validation.1 ⟨List.replicate 1001 'a', .to_korean⟩
      "\x7b\x7d".toList (replicate_length_eq 1001 'a'),
    length_boundary_validation.2.1 ⟨List.replicate 1000 'a', .to_korean⟩
      (replicate_length_eq 1000 'a'),
    length_boundary_validation.2.2 ⟨List.replicate 1000 'a', .to_korean⟩
      (replicate_length_eq 1000 'a') ?_⟩
  intro h
  have := pyStrip_eq_nil_iff.1 h 'a' (List.mem_replicate.2 ⟨by omega, rfl⟩)
  exact absurd this (by decide)

/-- C4 (counterexample to the claim as stated): a text of 1000 `'a'`s
followed by one space has trimmed length 1000 (within 1–1000), yet
validation rejects it with the length 400 — the limit is checked on
the raw, untrimmed text (`len(request.text) > 1000`). -/
theorem trimmed_length_1000_rejected :
    (pyStrip (List.replicate 1000 'a' ++ [' '])).length = 1000 ∧
    validate ⟨List.replicate 1000 'a' ++ [' '], .to_pangyo⟩ =
      some (.badRequest lengthMsg) := by
  have hs : pyStrip (List.replicate 1000 'a' ++ [' ']) = List.replicate 1000 'a' := by
    rw [pyStrip_append_ws _ [' ']
      (by intro c hc; rw [List.mem_singleton.1 hc]; rfl)]
    apply pyStrip_eq_self_of_all
    intro c hc
    rw [List.eq_of_mem_replicate hc]; rfl
  constructor
  · rw [hs]; exact replicate_length_eq 1000 'a'
  · have hne : pyStrip (List.replicate 1000 'a' ++ [' ']) ≠ [] := by
      rw [hs]
      intro h
      have := congrArg List.length h
      rw [replicate_length_eq] at this
      exact absurd this (by decide)
    unfold validate
    rw [if_neg hne, if_pos
      (by rw [List.length_append, replicate_length_eq, List.length_singleton]; omega)]

/-- C4 (amended): validation passes exactly when the trimmed text is
non-empty and the *raw* (untrimmed) text has at most 1000 characters;
the 1000-character limit is measured before trimming, not after. -/
theorem validation_measures_raw_length (req : TranslateRequest) :
    validate req = none ↔ (pyStrip req.text ≠ [] ∧ req.text.length ≤ 1000) :=
  validate_eq_none_iff req

/- ----------------------------------------------------------------
   Claims about the endpoint pipeline (C1, C2, C8, C9).
   ---------------------------------------------------------------- -/

/-- C1: for a request with non-empty (after trimming) text of at most
1000 characters, whenever the provider reply normalizes successfully,
the endpoint's response carries `original` equal to the request's raw
`text` verbatim (untrimmed) and `direction` equal to the request's
`direction`. -/
theorem response_echoes_request (req : TranslateRequest) (reply : Chars)
    (h1 : pyStrip req.text ≠ []) (h2 : req.text.length ≤ 1000)
    (tr : Chars) (ts : List TermExplanation)
    (h3 : normalizeReply reply = .ok (tr, ts)) :
    translate_text req reply = .ok ⟨req.text, tr, req.direction, ts⟩ := by
  have hv : validate req = none := (validate_eq_none_iff req).2 ⟨h1, h2⟩
  simp [translate_text, hv, h3]

theorem response_echoes_request_witness :
    translate_text ⟨"hello".toList, .to_pangyo⟩
        "\x7b\"translated\": \"hi\", \"terms\": [\x7b\"term\": \"t1\", \"meaning\": \"m1\", \"original\": \"o1\"\x7d]\x7d".toList =
      .ok ⟨"hello".toList, "hi".toList, .to_pangyo,
        [⟨"t1".toList, "m1".toList, "o1".toList⟩]⟩ :=
  response_echoes_request ⟨"hello".toList, .to_pangyo⟩ _ (by decide) (by decide) _ _ (by rfl)

/-- C2: when validation passes but the provider reply — after the
strip/fence-removal step — is not valid JSON, the whole request fails
with the dedicated parse-failure error, whose HTTP status is 500; no
partial or guessed result is returned. -/
theorem unparsable_reply_yields_parse_error (req : TranslateRequest) (reply : Chars)
    (hv : validate req = none) (hp : parseJson (strippedText reply) = none) :
    translate_text req reply = .error .parseError ∧
    ApiError.parseError.status = 500 := by
  refine ⟨?_, rfl⟩
  simp [translate_text, hv, normalizeReply, hp]

theorem unparsable_reply_yields_parse_error_witness :
    translate_text ⟨"hello".toList, .to_korean⟩ "sorry, no JSON here".toList =
      .error .parseError ∧
    ApiError.parseError.status = 500 :=
  unparsable_reply_yields_parse_error ⟨"hello".toList, .to_korean⟩ _ (by rfl) (by rfl)

/-- C8: a request whose text is empty or consists only of whitespace
is rejected with the empty-text 400 whatever the direction, and the
outcome does not depend on the provider reply (the provider is never
consulted: the result is the same for every possible reply). -/
theorem whitespace_text_yields_400 (text : Chars) (h : ∀ c ∈ text, isPyWs c)
    (d : Direction) (reply : Chars) :
    translate_text ⟨text, d⟩ reply = .error (.badRequest emptyTextMsg) ∧
    (ApiError.badRequest emptyTextMsg).status = 400 := by
  refine ⟨?_, rfl⟩
  have hs : pyStrip text = [] := pyStrip_eq_nil_iff.2 h
  simp [translate_text, validate, hs]

theorem whitespace_text_yields_400_witness :
    translate_text ⟨" \t ".toList, .to_pangyo⟩ "\x7b\x7d".toList =
      .error (.badRequest emptyTextMsg) ∧
    (ApiError.badRequest emptyTextMsg).status = 400 :=
  whitespace_text_yields_400 " \t ".toList (by decide) .to_pangyo "\x7b\x7d".toList

/-- C9: over any parsed reply object, an absent `terms` key yields the
empty terms list (and, whenever the `translated` extraction succeeds,
a successful result with no terms rather than an error); an absent
`translated` key yields the empty string (and, whenever the terms
extraction succeeds, a successful result with empty `translated`). -/
theorem absent_fields_default (fields : List (Chars × Json)) :
    (dictGet fields "terms".toList = none →
      getTerms fields = some [] ∧
      ∀ tr, getTranslated fields = some tr → extractResult fields = some (tr, [])) ∧
    (dictGet fields "translated".toList = none →
      getTranslated fields = some [] ∧
      ∀ ts, getTerms fields = some ts → extractResult fields = some ([], ts)) := by
  constructor
  · intro h
    have hg : getTerms fields = some [] := by unfold getTerms; rw [h]
    exact ⟨hg, fun tr htr => by simp [extractResult, htr, hg]⟩
  · intro h
    have hg : getTranslated fields = some [] := by unfold getTranslated; rw [h]
    exact ⟨hg, fun ts hts => by simp [extractResult, hg, hts]⟩

theorem absent_fields_default_witness :
    (getTerms [("other".toList, Json.null)] = some [] ∧
      ∀ tr, getTranslated [("other".toList, Json.null)] = some tr →
        extractResult [("other".toList, Json.null)] = some (tr, [])) ∧
    (getTranslated [("other".toList, Json.null)] = some [] ∧
      ∀ ts, getTerms [("other".toList, Json.null)] = some ts →
        extractResult [("other".toList, Json.null)] = some ([], ts)) :=
  ⟨(absent_fields_default [("other".toList, Json.null)]).1 (by rfl),
   (absent_fields_default [("other".toList, Json.null)]).2 (by rfl)⟩

/- ----------------------------------------------------------------
   C5: handling of `terms` elements.
   ---------------------------------------------------------------- -/

theorem mapM_eq_none_of_mem {α β : Type} (f : α → Option β) (xs : List α) (j : α)
    (hj : j ∈ xs) (hf : f j = none) : xs.mapM f = none := by
  induction xs with
  | nil => cases hj
  | cons x xs ih =>
    rw [List.mapM_cons]
    rcases List.mem_cons.1 hj with h | h
    · subst h; rw [hf]; rfl
    · cases hfx : f x with
      | none => rfl
      | some y =>
        show ((xs.mapM f) >>= fun ys => pure (y :: ys)) = none
        rw [ih h]
        rfl

/-- C5 (counterexample to the claim as stated): a reply whose `terms`
array holds one well-formed element and one element missing the
required `term` field makes the whole request fail with the generic
500 — the well-formed element does *not* survive into a successful
response. -/
theorem terms_element_missing_field_fails_request :
    translate_text ⟨"hello".toList, .to_pangyo⟩
        "\x7b\"translated\": \"x\", \"terms\": [\x7b\"term\": \"a\", \"meaning\": \"b\"\x7d, \x7b\"meaning\": \"c\"\x7d]\x7d".toList =
      .error .internalError := by
  rfl

/-- C5 (amended): each well-formed `terms` element becomes a
`TermExplanation` with `original` defaulting to the empty string when
absent; but an element missing a required field (`term` or `meaning`)
is not discarded individually — it aborts the whole list comprehension
and the entire request fails with the generic 500. -/
theorem terms_element_handling :
    (∀ (fields : List (Chars × Json)) (t m : Chars),
      dictGet fields "term".toList = some (.str t) →
      dictGet fields "meaning".toList = some (.str m) →
      dictGet fields "original".toList = none →
      mkTermExplanation (.obj fields) = some ⟨t, m, []⟩) ∧
    (∀ (reply : Chars) (fields : List (Chars × Json)) (xs : List Json) (j : Json),
      parseJson (strippedText reply) = some (.obj fields) →
      dictGet fields "terms".toList = some (.arr xs) →
      j ∈ xs → mkTermExplanation j = none →
      normalizeReply reply = .error .internalError) := by
  constructor
  · intro fields t m ht hm ho
    simp only [mkTermExplanation]
    rw [ht, hm, ho]
  · intro reply fields xs j hp hterms hj hfail
    have hmap : xs.mapM mkTermExplanation = none :=
      mapM_eq_none_of_mem mkTermExplanation xs j hj hfail
    have hterms' : getTerms fields = none := by
      unfold getTerms
      rw [hterms]
      show xs.mapM mkTermExplanation = none
      exact hmap
    have hex : extractResult fields = none := by
      unfold extractResult
      cases htr : getTranslated fields with
      | none => rfl
      | some tr => rw [hterms']
    unfold normalizeReply
    rw [hp]
    show (match extractResult fields with
          | some res => Except.ok res
          | none => Except.error ApiError.internalError) =
        Except.error ApiError.internalError
    rw [hex]

theorem terms_element_handling_witness :
    (mkTermExplanation (.obj [("term".toList, .str "t".toList),
        ("meaning".toList, .str "m".toList)]) =
      some ⟨"t".toList, "m".toList, []⟩) ∧
    (normalizeReply
        "\x7b\"translated\": \"x\", \"terms\": [\x7b\"term\": \"a\", \"meaning\": \"b\"\x7d, \x7b\"meaning\": \"c\"\x7d]\x7d".toList =
      .error .internalError) := by
  constructor
  · exact terms_element_handling.1 [("term".toList, .str "t".toList),
      ("meaning".toList, .str "m".toList)] "t".toList "m".toList rfl rfl rfl
  · exact terms_element_handling.2 _
      [("translated".toList, .str "x".toList),
       ("terms".toList, .arr [.obj [("term".toList, .str "a".toList),
          ("meaning".toList, .str "b".toList)],
        .obj [("meaning".toList, .str "c".toList)]])]
      [.obj [("term".toList, .str "a".toList), ("meaning".toList, .str "b".toList)],
       .obj [("meaning".toList, .str "c".toList)]]
      (.obj [("meaning".toList, .str "c".toList)])
      (by rfl) (by rfl)
      (List.mem_cons_of_mem _ (List.mem_cons_self _ _)) (by rfl)

/- ----------------------------------------------------------------
   Substring machinery for the fence-removal replaces.
   ---------------------------------------------------------------- -/

theorem suffOf_refl (t : Chars) : isSuffOf t t := ⟨[], rfl⟩

theorem suffOf_nil (t : Chars) : isSuffOf [] t := ⟨t, List.append_nil t⟩

theorem suffOf_cons_elim {t : Chars} {c : Char} {l : Chars} (h : isSuffOf t (c :: l)) :
    t = c :: l ∨ isSuffOf t l := by
  obtain ⟨u, hu⟩ := h
  cases u with
  | nil => exact Or.inl hu
  | cons a u' =>
    right
    cases hu
    exact ⟨u', rfl⟩

theorem suffOf_cons_of (t : Chars) (c : Char) (l : Chars) (h : isSuffOf t l) :
    isSuffOf t (c :: l) := by
  obtain ⟨u, hu⟩ := h
  exact ⟨c :: u, by rw [List.cons_append, hu]⟩

theorem suffOf_append_elim {t a b : Chars} (h : isSuffOf t (a ++ b)) :
    isSuffOf t b ∨ ∃ t', t' ≠ [] ∧ isSuffOf t' a ∧ t = t' ++ b := by
  induction a generalizing t with
  | nil => exact Or.inl (by simpa using h)
  | cons c a' ih =>
    rcases suffOf_cons_elim (by simpa using h) with h1 | h1
    · right
      exact ⟨c :: a', by simp, suffOf_refl _, by simpa using h1⟩
    · rcases ih h1 with h2 | ⟨t', hne, hsuff, heq⟩
      · exact Or.inl h2
      · exact Or.inr ⟨t', hne, suffOf_cons_of t' c a' hsuff, heq⟩

theorem mem_of_suffOf {t s : Chars} {c : Char} (hc : c ∈ t) (h : isSuffOf t s) : c ∈ s := by
  obtain ⟨u, hu⟩ := h
  rw [← hu]
  exact List.mem_append.2 (Or.inr hc)

theorem occurs_eq_false_iff {p s : Chars} :
    occurs p s = false ↔ ∀ t, isSuffOf t s → p.isPrefixOf t = false := by
  induction s with
  | nil =>
    constructor
    · intro h t ht
      obtain ⟨u, hu⟩ := ht
      rcases List.append_eq_nil.1 hu with ⟨-, h2⟩
      subst h2
      exact h
    · intro h
      exact h [] (suffOf_refl [])
  | cons c cs ih =>
    constructor
    · intro h t ht
      rw [occurs, Bool.or_eq_false_iff] at h
      rcases suffOf_cons_elim ht with h1 | h1
      · rw [h1]; exact h.1
      · exact ih.1 h.2 t h1
    · intro h
      rw [occurs, Bool.or_eq_false_iff]
      exact ⟨h _ (suffOf_refl _), ih.2 fun t ht => h t (suffOf_cons_of t c cs ht)⟩

theorem isPrefixOf_append_self (p x : Chars) : p.isPrefixOf (p ++ x) = true := by
  induction p with
  | nil => cases x <;> rfl
  | cons c p' ih => simpa [List.isPrefixOf] using ih

theorem isPrefixOf_length_le {p t : Chars} (h : p.isPrefixOf t = true) :
    p.length ≤ t.length := by
  induction p generalizing t with
  | nil => simp
  | cons c p' ih =>
    cases t with
    | nil => cases h
    | cons d t' =>
      simp only [List.isPrefixOf, Bool.and_eq_true] at h
      simpa using ih h.2

/- ----------------------------------------------------------------
   Facts about `replGo` / `pyReplace`.
   ---------------------------------------------------------------- -/

theorem replGo_of_no_occ (p r : Chars) (hp : p ≠ [])
    (l : Chars) (h : ∀ t, isSuffOf t l → p.isPrefixOf t = false) :
    ∀ f, l.length ≤ f → replGo p r f l = l := by
  induction l with
  | nil => intro f _; cases f <;> rfl
  | cons c cs ih =>
    intro f hf
    cases f with
    | zero => simp at hf
    | succ f' =>
      rw [replGo, if_neg (by rw [h (c :: cs) (suffOf_refl _)]; exact Bool.false_ne_true)]
      rw [ih (fun t ht => h t (suffOf_cons_of t c cs ht)) f' (by simpa using hf)]

theorem replGo_append (p r : Chars) (a b : Chars)
    (h : ∀ t', t' ≠ [] → isSuffOf t' a → p.isPrefixOf (t' ++ b) = false) :
    ∀ f, a.length + b.length ≤ f →
      replGo p r f (a ++ b) = a ++ replGo p r (f - a.length) b := by
  induction a with
  | nil => intro f _; simp
  | cons c a' ih =>
    intro f hf
    cases f with
    | zero => simp at hf
    | succ f' =>
      have hne : p.isPrefixOf ((c :: a') ++ b) = false :=
        h (c :: a') (by simp) (suffOf_refl _)
      rw [List.cons_append, replGo, if_neg (by rw [List.cons_append] at hne; simp [hne])]
      rw [ih (fun t' ht hsuff => h t' ht (suffOf_cons_of t' c a' hsuff)) f'
        (by rw [List.length_cons] at hf; omega)]
      have hfu : f' + 1 - (c :: a').length = f' - a'.length := by
        rw [List.length_cons]; omega
      rw [hfu, List.cons_append]

theorem replGo_head_match (p r : Chars) (hp : p ≠ []) (rest : Chars) :
    ∀ f, 1 ≤ f → replGo p r f (p ++ rest) = r ++ replGo p r (f - 1) rest := by
  intro f hf
  cases f with
  | zero => omega
  | succ f' =>
    cases p with
    | nil => exact absurd rfl hp
    | cons c p'' =>
      rw [List.cons_append, replGo,
        if_pos (by rw [← List.cons_append]; exact isPrefixOf_append_self _ _)]
      rw [← List.cons_append, List.drop_left]
      norm_num

/- ----------------------------------------------------------------
   Occurrence analysis for the three fence patterns.
   All three patterns start with three backticks.
   ---------------------------------------------------------------- -/

theorem fencePlain_eq : fencePlain = [bq, bq, bq] := by decide

theorem fenceNl_eq : fenceNl = bq :: bq :: bq :: '\n' :: [] := by decide

theorem fenceJsonNl_eq :
    fenceJsonNl = bq :: bq :: bq :: 'j' :: 's' :: 'o' :: 'n' :: '\n' :: [] := by decide

theorem fenceJsonTag_eq :
    fenceJsonTag = bq :: bq :: bq :: 'j' :: 's' :: 'o' :: 'n' :: [] := by decide

theorem occurs_true_of_suffOf {p t s : Chars} (hsuff : isSuffOf t s)
    (hpre : p.isPrefixOf t = true) : occurs p s = true := by
  cases ho : occurs p s
  · rw [occurs_eq_false_iff.1 ho t hsuff] at hpre; cases hpre
  · rfl

/-- A match of a pattern `` ``` ++ q `` cannot start strictly inside
`s` when `s` has no three consecutive backticks and the pattern's
one- and two-backtick-shortened variants are not prefixes of the
continuation `b`. -/
theorem no_match_into_tail (q s b : Chars)
    (hs : occurs fencePlain s = false)
    (h1 : (bq :: bq :: q).isPrefixOf b = false)
    (h2 : (bq :: q).isPrefixOf b = false) :
    ∀ t', t' ≠ [] → isSuffOf t' s →
      (bq :: bq :: bq :: q).isPrefixOf (t' ++ b) = false := by
  intro t' hne hsuff
  cases t' with
  | nil => exact absurd rfl hne
  | cons a t1 =>
    cases t1 with
    | nil =>
      simp only [List.cons_append, List.nil_append, List.append_eq, List.isPrefixOf]
      rw [h1]
      simp
    | cons a' t2 =>
      cases t2 with
      | nil =>
        simp only [List.cons_append, List.nil_append, List.append_eq, List.isPrefixOf]
        rw [h2]
        simp
      | cons a'' t'' =>
        have hpre : fencePlain.isPrefixOf (a :: a' :: a'' :: t'') = false := by
          cases hp : fencePlain.isPrefixOf (a :: a' :: a'' :: t'')
          · rfl
          · rw [occurs_true_of_suffOf hsuff hp] at hs; cases hs
        rw [fencePlain_eq] at hpre
        simp only [List.isPrefixOf] at hpre
        simp only [List.cons_append, List.isPrefixOf]
        cases hA : (bq == a) <;> cases hB : (bq == a') <;> cases hC : (bq == a'') <;>
          simp_all

/-- No occurrence of a ``` ```-headed pattern anywhere in `s ++ b`,
given no three consecutive backticks in `s`, no occurrence in `b`, and
no boundary-straddling match. -/
theorem no_occ_append (q s b : Chars) (hs : occurs fencePlain s = false)
    (h1 : (bq :: bq :: q).isPrefixOf b = false)
    (h2 : (bq :: q).isPrefixOf b = false)
    (hb : ∀ t, isSuffOf t b → (bq :: bq :: bq :: q).isPrefixOf t = false) :
    ∀ t, isSuffOf t (s ++ b) → (bq :: bq :: bq :: q).isPrefixOf t = false := by
  intro t ht
  rcases suffOf_append_elim ht with h | ⟨t', hne, hsuff, heq⟩
  · exact hb t h
  · rw [heq]
    exact no_match_into_tail q s b hs h1 h2 t' hne hsuff

theorem no_occ_of_bq_free (P s : Chars) (hbq : ∀ a ∈ s, (bq == a) = false) :
    ∀ t, isSuffOf t s → (bq :: P).isPrefixOf t = false := by
  intro t ht
  cases t with
  | nil => rfl
  | cons a t1 =>
    have ha : (bq == a) = false := hbq a (mem_of_suffOf (List.mem_cons_self a t1) ht)
    simp [List.isPrefixOf, ha]

theorem boundary_of_bq_free (P s b : Chars) (hbq : ∀ a ∈ s, (bq == a) = false) :
    ∀ t', t' ≠ [] → isSuffOf t' s → (bq :: P).isPrefixOf (t' ++ b) = false := by
  intro t' hne hsuff
  cases t' with
  | nil => exact absurd rfl hne
  | cons a t1 =>
    have ha : (bq == a) = false := hbq a (mem_of_suffOf (List.mem_cons_self a t1) hsuff)
    simp [List.isPrefixOf, ha]

theorem occurs_false_of_bq_free (P s : Chars) (hbq : ∀ a ∈ s, (bq == a) = false) :
    occurs (bq :: P) s = false :=
  occurs_eq_false_iff.2 (no_occ_of_bq_free P s hbq)

theorem endFence_eq : endFence = '\n' :: bq :: bq :: bq :: [] := by decide

/-- Removing the fences from ` ```json\n<s>\n``` ` leaves `s ++ "\n"`
when `s` has no three consecutive backticks: the opening pattern is
removed by the first replace, nothing matches the second, and the
trailing ` ``` ` is removed by the third, stranding the final newline. -/
theorem fenceReplace_fenced (s : Chars) (hs : occurs fencePlain s = false) :
    fenceReplace (fenceJsonNl ++ s ++ endFence) = s ++ ['\n'] := by
  have hlen1 : fenceJsonNl.length = 8 := by decide
  have hlenE : endFence.length = 4 := by decide
  have st1 : pyReplace (fenceJsonNl ++ s ++ endFence) fenceJsonNl [] = s ++ endFence := by
    rw [List.append_assoc]
    unfold pyReplace
    rw [replGo_head_match _ _ (by decide) _ _
      (by rw [List.length_append, hlen1]; omega)]
    rw [List.nil_append]
    apply replGo_of_no_occ _ _ (by decide)
    · intro t ht
      rw [fenceJsonNl_eq]
      apply no_occ_append ('j' :: 's' :: 'o' :: 'n' :: '\n' :: []) s endFence hs
        (by decide) (by decide) ?_ t ht
      intro t2 ht2
      exact occurs_eq_false_iff.1 (by decide) t2 ht2
    · simp only [List.length_append, hlen1, hlenE]
      omega
  have st2 : pyReplace (s ++ endFence) fenceNl [] = s ++ endFence := by
    unfold pyReplace
    apply replGo_of_no_occ _ _ (by decide)
    · intro t ht
      rw [fenceNl_eq]
      apply no_occ_append ('\n' :: []) s endFence hs (by decide) (by decide) ?_ t ht
      intro t2 ht2
      exact occurs_eq_false_iff.1 (by decide) t2 ht2
    · omega
  have st3 : pyReplace (s ++ endFence) fencePlain [] = s ++ ['\n'] := by
    unfold pyReplace
    rw [replGo_append fencePlain [] s endFence ?_ _
      (Nat.le_of_eq (List.length_append s endFence).symm)]
    · have hfu : (s ++ endFence).length - s.length = 4 := by
        rw [List.length_append, hlenE]; omega
      rw [hfu]
      rw [show replGo fencePlain [] 4 endFence = ['\n'] by decide]
    · intro t' hne hsuff
      rw [fencePlain_eq]
      exact no_match_into_tail [] s endFence hs (by decide) (by decide) t' hne hsuff
  unfold fenceReplace
  rw [st1, st2, st3]

theorem suffOf_fencePlain {t' : Chars} (hne : t' ≠ []) (h : isSuffOf t' fencePlain) :
    t' = [bq] ∨ t' = [bq, bq] ∨ t' = [bq, bq, bq] := by
  rw [fencePlain_eq] at h
  rcases suffOf_cons_elim h with h | h
  · exact Or.inr (Or.inr h)
  · rcases suffOf_cons_elim h with h | h
    · exact Or.inr (Or.inl h)
    · rcases suffOf_cons_elim h with h | h
      · exact Or.inl h
      · obtain ⟨u, hu⟩ := h
        rcases List.append_eq_nil.1 hu with ⟨-, h2⟩
        exact absurd h2 hne

/-- No occurrence of a pattern `` ```d… `` anywhere in `` ``` ++ c :: v' ``
when the continuation `c :: v'` is backtick-free and `d ≠ c`. -/
theorem no_occ_fence_tail (d : Char) (Q : Chars) (c : Char) (v' : Chars)
    (hv : ∀ a ∈ v', (bq == a) = false) (hc : (bq == c) = false) (hd : (d == c) = false) :
    ∀ t, isSuffOf t (fencePlain ++ (c :: v')) →
      (bq :: bq :: bq :: d :: Q).isPrefixOf t = false := by
  intro t ht
  rcases suffOf_append_elim ht with h | ⟨t', hne, hsuff, heq⟩
  · apply no_occ_of_bq_free (bq :: bq :: d :: Q) (c :: v') ?_ t h
    intro a ha
    rcases List.mem_cons.1 ha with h1 | h1
    · rw [h1]; exact hc
    · exact hv a h1
  · subst heq
    rcases suffOf_fencePlain hne hsuff with h1 | h1 | h1 <;> subst h1 <;>
      simp [List.isPrefixOf, hc, hd]

/-- The fence-removal replaces act on the whole text: an occurrence of
` ``` ` strictly inside the fenced payload (here separating `u` from
`c :: v'`) is removed as well. -/
theorem fenceReplace_interior (u v' : Chars) (c : Char)
    (hu : ∀ a ∈ u, (bq == a) = false)
    (hv : ∀ a ∈ v', (bq == a) = false)
    (hc1 : (bq == c) = false) (hc2 : ('j' == c) = false) (hc3 : ('\n' == c) = false) :
    fenceReplace (fenceJsonNl ++ u ++ (fencePlain ++ (c :: v'))) = u ++ c :: v' := by
  have hlen1 : fenceJsonNl.length = 8 := by decide
  have hlen3 : fencePlain.length = 3 := by decide
  have hno1 : ∀ t, isSuffOf t (u ++ (fencePlain ++ (c :: v'))) →
      fenceJsonNl.isPrefixOf t = false := by
    intro t ht
    rw [fenceJsonNl_eq]
    rcases suffOf_append_elim ht with h | ⟨t', hne, hsuff, heq⟩
    · exact no_occ_fence_tail 'j' ('s' :: 'o' :: 'n' :: '\n' :: []) c v' hv hc1 hc2 t h
    · subst heq
      exact boundary_of_bq_free _ u _ hu t' hne hsuff
  have hno2 : ∀ t, isSuffOf t (u ++ (fencePlain ++ (c :: v'))) →
      fenceNl.isPrefixOf t = false := by
    intro t ht
    rw [fenceNl_eq]
    rcases suffOf_append_elim ht with h | ⟨t', hne, hsuff, heq⟩
    · exact no_occ_fence_tail '\n' [] c v' hv hc1 hc3 t h
    · subst heq
      exact boundary_of_bq_free _ u _ hu t' hne hsuff
  have st1 : pyReplace (fenceJsonNl ++ u ++ (fencePlain ++ (c :: v'))) fenceJsonNl [] =
      u ++ (fencePlain ++ (c :: v')) := by
    rw [List.append_assoc]
    unfold pyReplace
    rw [replGo_head_match _ _ (by decide) _ _
      (by simp only [List.length_append, hlen1]; omega)]
    rw [List.nil_append]
    apply replGo_of_no_occ _ _ (by decide) _ hno1
    simp only [List.length_append, hlen1]
    omega
  have st2 : pyReplace (u ++ (fencePlain ++ (c :: v'))) fenceNl [] =
      u ++ (fencePlain ++ (c :: v')) := by
    unfold pyReplace
    apply replGo_of_no_occ _ _ (by decide) _ hno2
    omega
  have st3 : pyReplace (u ++ (fencePlain ++ (c :: v'))) fencePlain [] = u ++ c :: v' := by
    unfold pyReplace
    rw [replGo_append fencePlain [] u (fencePlain ++ (c :: v'))
      (boundary_of_bq_free _ u _ hu) _
      (Nat.le_of_eq (List.length_append u (fencePlain ++ (c :: v'))).symm)]
    have hfu : (u ++ (fencePlain ++ (c :: v'))).length - u.length =
        (fencePlain ++ (c :: v')).length := by
      simp only [List.length_append]
      omega
    rw [hfu]
    rw [replGo_head_match _ _ (by decide) _ _
      (by simp only [List.length_append, hlen3]; omega)]
    rw [List.nil_append]
    congr 1
    apply replGo_of_no_occ _ _ (by decide)
    · apply no_occ_of_bq_free
      intro a ha
      rcases List.mem_cons.1 ha with h1 | h1
      · rw [h1]; exact hc1
      · exact hv a h1
    · simp only [List.length_append, hlen3]
      omega
  unfold fenceReplace
  rw [st1, st2, st3]

/-- C10: when a reply starts with ` ```json `, fence-stripping runs the
three replaces over the entire text, removing fence sequences that
occur strictly inside the payload as well; consequently normalization
is not content-preserving when a JSON string value contains three
backticks: the fenced reply with `"a```b"` normalizes with translated
value `"ab"` while the unfenced reply keeps `"a```b"`. -/
theorem fence_strip_rewrites_whole_text :
    (∀ (u v' : Chars) (c : Char), (∀ a ∈ u, (bq == a) = false) →
      (∀ a ∈ v', (bq == a) = false) →
      (bq == c) = false → ('j' == c) = false → ('\n' == c) = false →
      fenceReplace (fenceJsonNl ++ u ++ (fencePlain ++ (c :: v'))) = u ++ c :: v') ∧
    normalizeReply "```json\n\x7b\"translated\": \"a```b\", \"terms\": []\x7d\n```".toList =
      .ok ("ab".toList, []) ∧
    normalizeReply "\x7b\"translated\": \"a```b\", \"terms\": []\x7d".toList =
      .ok ("a```b".toList, []) := by
  refine ⟨fenceReplace_interior, by rfl, by rfl⟩

theorem fence_strip_rewrites_whole_text_witness :
    fenceReplace (fenceJsonNl ++ "A".toList ++ (fencePlain ++ ('x' :: "yz".toList))) =
      "A".toList ++ 'x' :: "yz".toList :=
  fence_strip_rewrites_whole_text.1 "A".toList "yz".toList 'x'
    (by decide) (by decide) (by decide) (by decide) (by decide)

/- ----------------------------------------------------------------
   Appending trailing JSON whitespace does not change a successful
   parse (the extension lemmas used for the fence round-trip claims).
   ---------------------------------------------------------------- -/

theorem jsonWs_cases {c : Char} (h : isJsonWs c = true) :
    c = ' ' ∨ c = '\t' ∨ c = '\n' ∨ c = '\r' := by
  simp only [isJsonWs, Bool.or_eq_true, decide_eq_true_eq] at h
  tauto

theorem jsonWs_not_digit {c : Char} (h : isJsonWs c = true) : c.isDigit = false := by
  rcases jsonWs_cases h with h | h | h | h <;> subst h <;> decide

theorem jsonWs_ne {c d : Char} (h : isJsonWs c = true) (hd : isJsonWs d = false) :
    c ≠ d := by
  intro he
  subst he
  rw [h] at hd
  cases hd

theorem skipWs_append_cons {cs : Chars} {c : Char} {cs1 : Chars}
    (h : skipWs cs = c :: cs1) (t : Chars) : skipWs (cs ++ t) = c :: (cs1 ++ t) := by
  unfold skipWs at h ⊢
  rw [List.dropWhile_append, if_neg (by rw [h]; simp), h]
  rfl

theorem skipWs_nil_append {cs : Chars} (h : skipWs cs = []) (t : Chars) :
    skipWs (cs ++ t) = skipWs t := by
  unfold skipWs at h ⊢
  rw [List.dropWhile_append, if_pos (by rw [h]; rfl)]

theorem skipWs_ws_eq_nil {t : Chars} (hws : ∀ c ∈ t, isJsonWs c = true) :
    skipWs t = [] :=
  List.dropWhile_eq_nil_iff.2 hws

theorem take_drop_append_of_take_eq {cs t X : Chars} {n : Nat}
    (h : cs.take n = X) (hlen : X.length = n) :
    (cs ++ t).take n = X ∧ (cs ++ t).drop n = cs.drop n ++ t := by
  have hle : n ≤ cs.length := by
    have hl := congrArg List.length h
    rw [List.length_take] at hl
    omega
  constructor
  · rw [List.take_append_eq_append_take, Nat.sub_eq_zero_of_le hle, List.take_zero,
      List.append_nil, h]
  · rw [List.drop_append_eq_append_drop, Nat.sub_eq_zero_of_le hle, List.drop_zero]

theorem takeWhile_digit_append {xs t : Chars} (ht : t.takeWhile Char.isDigit = []) :
    (xs ++ t).takeWhile Char.isDigit = xs.takeWhile Char.isDigit := by
  rw [List.takeWhile_append]
  split
  · next h =>
    rw [ht, List.append_nil]
    exact (List.Sublist.eq_of_length (List.takeWhile_sublist _) h).symm
  · rfl

theorem dropWhile_digit_append {xs t : Chars} (ht : t.dropWhile Char.isDigit = t) :
    (xs ++ t).dropWhile Char.isDigit = xs.dropWhile Char.isDigit ++ t := by
  rw [List.dropWhile_append]
  split
  · next h =>
    rw [ht]
    cases hxe : xs.dropWhile Char.isDigit with
    | nil => rw [List.nil_append]
    | cons a l => rw [hxe] at h; simp at h
  · rfl

theorem parseSB_ext (t : Chars) :
    ∀ f cs s r, parseSB f cs = some (s, r) →
      ∀ f', f ≤ f' → parseSB f' (cs ++ t) = some (s, r ++ t) := by
  intro f
  induction f with
  | zero => intro cs s r h; rw [parseSB] at h; exact Option.noConfusion h
  | succ g ih =>
    intro cs s r h f' hf'
    cases f' with
    | zero => omega
    | succ g' =>
      have hg : g ≤ g' := by omega
      cases cs with
      | nil => rw [parseSB] at h; exact Option.noConfusion h
      | cons c rest =>
        by_cases h1 : c = '"'
        · simp only [parseSB, if_pos h1, List.cons_append] at h ⊢
          simp only [Option.some.injEq, Prod.mk.injEq] at h
          obtain ⟨rfl, rfl⟩ := h
          rfl
        · by_cases h2 : c = '\\'
          · cases rest with
            | nil =>
              simp only [parseSB, if_neg h1, if_pos h2] at h
              exact Option.noConfusion h
            | cons e rest2 =>
              by_cases h4 : e = 'u'
              · cases rest2 with
                | nil =>
                  simp only [parseSB, if_neg h1, if_pos h2, if_pos h4] at h
                  exact Option.noConfusion h
                | cons a r2a =>
                  cases r2a with
                  | nil =>
                    simp only [parseSB, if_neg h1, if_pos h2, if_pos h4] at h
                    exact Option.noConfusion h
                  | cons b r2b =>
                    cases r2b with
                    | nil =>
                      simp only [parseSB, if_neg h1, if_pos h2, if_pos h4] at h
                      exact Option.noConfusion h
                    | cons c2 r2c =>
                      cases r2c with
                      | nil =>
                        simp only [parseSB, if_neg h1, if_pos h2, if_pos h4] at h
                        exact Option.noConfusion h
                      | cons d rest3 =>
                        simp only [parseSB, if_neg h1, if_pos h2, if_pos h4,
                          List.cons_append] at h ⊢
                        cases hha : hexVal a with
                        | none => rw [hha] at h; exact Option.noConfusion h
                        | some ha2 =>
                        cases hhb : hexVal b with
                        | none => rw [hha, hhb] at h; exact Option.noConfusion h
                        | some hb2 =>
                        cases hhc : hexVal c2 with
                        | none => rw [hha, hhb, hhc] at h; exact Option.noConfusion h
                        | some hc2 =>
                        cases hhd : hexVal d with
                        | none => rw [hha, hhb, hhc, hhd] at h; exact Option.noConfusion h
                        | some hd2 =>
                        simp only [hha, hhb, hhc, hhd] at h
                        cases hrec : parseSB g rest3 with
                        | none => rw [hrec] at h; exact Option.noConfusion h
                        | some pr =>
                          obtain ⟨s2, r2⟩ := pr
                          rw [hrec] at h
                          have h' : some
                              (Char.ofNat (((ha2 * 16 + hb2) * 16 + hc2) * 16 + hd2) :: s2,
                                r2) = some (s, r) := h
                          rw [Option.some_inj, Prod.mk.injEq] at h'
                          obtain ⟨rfl, rfl⟩ := h'
                          rw [ih rest3 s2 r2 hrec g' hg]
              · simp only [parseSB, if_neg h1, if_pos h2, if_neg h4,
                  List.cons_append] at h ⊢
                cases hesc : escChar e with
                | none => rw [hesc] at h; exact Option.noConfusion h
                | some ec =>
                cases hrec : parseSB g rest2 with
                | none => rw [hesc, hrec] at h; exact Option.noConfusion h
                | some pr =>
                  obtain ⟨s2, r2⟩ := pr
                  rw [hesc, hrec] at h
                  have h' : some (ec :: s2, r2) = some (s, r) := h
                  rw [Option.some_inj, Prod.mk.injEq] at h'
                  obtain ⟨rfl, rfl⟩ := h'
                  rw [ih rest2 s2 r2 hrec g' hg]
          · by_cases h3 : c.toNat < 32
            · simp only [parseSB, if_neg h1, if_neg h2, if_pos h3] at h
              exact Option.noConfusion h
            · simp only [parseSB, if_neg h1, if_neg h2, if_neg h3,
                List.cons_append] at h ⊢
              cases hrec : parseSB g rest with
              | none => rw [hrec] at h; exact Option.noConfusion h
              | some pr =>
                obtain ⟨s2, r2⟩ := pr
                rw [hrec] at h
                have h' : some (c :: s2, r2) = some (s, r) := h
                rw [Option.some_inj, Prod.mk.injEq] at h'
                obtain ⟨rfl, rfl⟩ := h'
                rw [ih rest s2 r2 hrec g' hg]

theorem ws_tail_facts (t : Chars) (hws : ∀ c ∈ t, isJsonWs c = true) :
    t.takeWhile Char.isDigit = [] ∧ t.dropWhile Char.isDigit = t := by
  cases t with
  | nil => exact ⟨rfl, rfl⟩
  | cons c t' =>
    have hd : c.isDigit = false := jsonWs_not_digit (hws c (List.mem_cons_self c t'))
    exact ⟨List.takeWhile_cons_of_neg (by simp [hd]),
      List.dropWhile_cons_of_neg (by simp [hd])⟩

theorem parseExpPart_ext (t : Chars) (hws : ∀ c ∈ t, isJsonWs c = true) (lex r : Chars) :
    parseExpPart lex (r ++ t) = ((parseExpPart lex r).1, (parseExpPart lex r).2 ++ t) := by
  have htw : t.takeWhile Char.isDigit = [] := (ws_tail_facts t hws).1
  have hdw : t.dropWhile Char.isDigit = t := (ws_tail_facts t hws).2
  cases r with
  | nil =>
    cases t with
    | nil => rfl
    | cons c t3 =>
      have hc : isJsonWs c = true := hws c (List.mem_cons_self c t3)
      have hce : ¬(c = 'e' ∨ c = 'E') := by
        rintro (rfl | rfl) <;> simp [isJsonWs] at hc
      simp only [parseExpPart, List.nil_append, if_neg hce]
  | cons e r2 =>
    by_cases he : e = 'e' ∨ e = 'E'
    · cases r2 with
      | nil =>
        simp only [parseExpPart, List.cons_append, List.nil_append, if_pos he]
        cases t with
        | nil => rfl
        | cons c t3 =>
          have hc : isJsonWs c = true := hws c (List.mem_cons_self c t3)
          have hcs : ¬(c = '+' ∨ c = '-') := by
            rintro (rfl | rfl) <;> simp [isJsonWs] at hc
          simp only []
          rw [if_neg hcs]
          have htw' : (c :: t3).takeWhile Char.isDigit = [] := htw
          rw [htw']
          simp
      | cons c2 r3 =>
        by_cases hsign : c2 = '+' ∨ c2 = '-'
        · simp only [parseExpPart, List.cons_append, if_pos he, if_pos hsign]
          rw [takeWhile_digit_append htw]
          by_cases hds : (r3.takeWhile Char.isDigit).isEmpty
          · rw [if_pos hds, if_pos hds] <;> try simp
          · rw [if_neg hds, if_neg hds, dropWhile_digit_append hdw] <;> try simp
        · simp only [parseExpPart, List.cons_append, if_pos he, if_neg hsign]
          rw [← List.cons_append, takeWhile_digit_append htw]
          by_cases hds : ((c2 :: r3).takeWhile Char.isDigit).isEmpty
          · rw [if_pos hds, if_pos hds] <;> try simp
          · rw [if_neg hds, if_neg hds, dropWhile_digit_append hdw] <;> try simp
    · simp only [parseExpPart, List.cons_append, if_neg he]

theorem parseFracExp_ext (t : Chars) (hws : ∀ c ∈ t, isJsonWs c = true) (lex r : Chars) :
    parseFracExp lex (r ++ t) = ((parseFracExp lex r).1, (parseFracExp lex r).2 ++ t) := by
  have htw : t.takeWhile Char.isDigit = [] := (ws_tail_facts t hws).1
  have hdw : t.dropWhile Char.isDigit = t := (ws_tail_facts t hws).2
  cases r with
  | nil =>
    have e1 : parseFracExp lex t = parseExpPart lex t := by
      cases t with
      | nil => rfl
      | cons c t3 =>
        have hc : isJsonWs c = true := hws c (List.mem_cons_self c t3)
        have hcd : ¬c = '.' := by rintro rfl; simp [isJsonWs] at hc
        simp only [parseFracExp]
        rw [if_neg hcd]
    have h2 := parseExpPart_ext t hws lex []
    rw [List.nil_append] at h2
    rw [List.nil_append, e1]
    exact h2
  | cons c r2 =>
    by_cases hdot : c = '.'
    · simp only [parseFracExp, List.cons_append, if_pos hdot]
      rw [takeWhile_digit_append htw]
      by_cases hds : (r2.takeWhile Char.isDigit).isEmpty
      · rw [if_pos hds, if_pos hds, ← List.cons_append]
        exact parseExpPart_ext t hws lex (c :: r2)
      · rw [if_neg hds, if_neg hds, dropWhile_digit_append hdw]
        exact parseExpPart_ext t hws _ _
    · simp only [parseFracExp, List.cons_append, if_neg hdot]
      rw [← List.cons_append]
      exact parseExpPart_ext t hws lex (c :: r2)

theorem numBody_ext (t : Chars) (hws : ∀ c ∈ t, isJsonWs c = true)
    (cs lex r : Chars) (h : numBody cs = some (lex, r)) :
    numBody (cs ++ t) = some (lex, r ++ t) := by
  have htw : t.takeWhile Char.isDigit = [] := (ws_tail_facts t hws).1
  have hdw : t.dropWhile Char.isDigit = t := (ws_tail_facts t hws).2
  cases cs with
  | nil => rw [numBody] at h; exact Option.noConfusion h
  | cons c r0 =>
    by_cases h0 : c = '0'
    · simp only [numBody, if_pos h0, List.cons_append] at h ⊢
      rw [Option.some_inj] at h
      rw [parseFracExp_ext t hws, h]
    · by_cases hd : c.isDigit
      · simp only [numBody, if_neg h0, if_pos hd, List.cons_append] at h ⊢
        rw [Option.some_inj] at h
        rw [takeWhile_digit_append htw, dropWhile_digit_append hdw,
          parseFracExp_ext t hws, h]
      · simp only [numBody, if_neg h0, if_neg hd] at h
        exact Option.noConfusion h

theorem parseNumber_ext (t : Chars) (hws : ∀ c ∈ t, isJsonWs c = true)
    (cs lex r : Chars) (h : parseNumber cs = some (lex, r)) :
    parseNumber (cs ++ t) = some (lex, r ++ t) := by
  cases cs with
  | nil => rw [parseNumber] at h; exact Option.noConfusion h
  | cons c cs1 =>
    by_cases hm : c = '-'
    · simp only [parseNumber, if_pos hm, List.cons_append] at h ⊢
      cases hnb : numBody cs1 with
      | none => rw [hnb] at h; exact Option.noConfusion h
      | some pr =>
        obtain ⟨lex2, r2⟩ := pr
        rw [hnb] at h
        have h' : some ('-' :: lex2, r2) = some (lex, r) := h
        rw [Option.some_inj, Prod.mk.injEq] at h'
        obtain ⟨rfl, rfl⟩ := h'
        rw [numBody_ext t hws cs1 lex2 r2 hnb]
    · simp only [parseNumber, if_neg hm, List.cons_append] at h ⊢
      exact numBody_ext t hws (c :: cs1) lex r h

theorem parseValue_ext (t : Chars) (hws : ∀ c ∈ t, isJsonWs c = true) :
    ∀ f cs v r, parseValue f cs = some (v, r) →
      ∀ f', f ≤ f' → parseValue f' (cs ++ t) = some (v, r ++ t) := by
  intro f
  induction f with
  | zero => intro cs v r h; rw [parseValue] at h; exact Option.noConfusion h
  | succ g ih =>
    intro cs v r h f' hf'
    cases f' with
    | zero => omega
    | succ g' =>
      have hg : g ≤ g' := by omega
      cases hsk : skipWs cs with
      | nil =>
        simp only [parseValue, hsk] at h
        exact Option.noConfusion h
      | cons c cs1 =>
        simp only [parseValue, hsk] at h
        simp only [parseValue, skipWs_append_cons hsk t]
        by_cases e1 : c = 'n'
        · rw [if_pos e1] at h ⊢
          by_cases htk : cs1.take 3 = ['u', 'l', 'l']
          · rw [if_pos htk] at h
            obtain ⟨h3, h4⟩ := take_drop_append_of_take_eq (t := t) htk (by decide)
            rw [if_pos h3]
            have h' : some (Json.null, cs1.drop 3) = some (v, r) := h
            rw [Option.some_inj, Prod.mk.injEq] at h'
            obtain ⟨rfl, rfl⟩ := h'
            rw [h4]
          · rw [if_neg htk] at h; exact Option.noConfusion h
        · rw [if_neg e1] at h ⊢
          by_cases e2 : c = 't'
          · rw [if_pos e2] at h ⊢
            by_cases htk : cs1.take 3 = ['r', 'u', 'e']
            · rw [if_pos htk] at h
              obtain ⟨h3, h4⟩ := take_drop_append_of_take_eq (t := t) htk (by decide)
              rw [if_pos h3]
              have h' : some (Json.bool true, cs1.drop 3) = some (v, r) := h
              rw [Option.some_inj, Prod.mk.injEq] at h'
              obtain ⟨rfl, rfl⟩ := h'
              rw [h4]
            · rw [if_neg htk] at h; exact Option.noConfusion h
          · rw [if_neg e2] at h ⊢
            by_cases e3 : c = 'f'
            · rw [if_pos e3] at h ⊢
              by_cases htk : cs1.take 4 = ['a', 'l', 's', 'e']
              · rw [if_pos htk] at h
                obtain ⟨h3, h4⟩ := take_drop_append_of_take_eq (t := t) htk (by decide)
                rw [if_pos h3]
                have h' : some (Json.bool false, cs1.drop 4) = some (v, r) := h
                rw [Option.some_inj, Prod.mk.injEq] at h'
                obtain ⟨rfl, rfl⟩ := h'
                rw [h4]
              · rw [if_neg htk] at h; exact Option.noConfusion h
            · rw [if_neg e3] at h ⊢
              by_cases e4 : c = 'N'
              · rw [if_pos e4] at h ⊢
                by_cases htk : cs1.take 2 = ['a', 'N']
                · rw [if_pos htk] at h
                  obtain ⟨h3, h4⟩ := take_drop_append_of_take_eq (t := t) htk (by decide)
                  rw [if_pos h3]
                  have h' : some (Json.num ['N', 'a', 'N'], cs1.drop 2) = some (v, r) := h
                  rw [Option.some_inj, Prod.mk.injEq] at h'
                  obtain ⟨rfl, rfl⟩ := h'
                  rw [h4]
                · rw [if_neg htk] at h; exact Option.noConfusion h
              · rw [if_neg e4] at h ⊢
                by_cases e5 : c = 'I'
                · rw [if_pos e5] at h ⊢
                  by_cases htk : cs1.take 7 = ['n', 'f', 'i', 'n', 'i', 't', 'y']
                  · rw [if_pos htk] at h
                    obtain ⟨h3, h4⟩ := take_drop_append_of_take_eq (t := t) htk (by decide)
                    rw [if_pos h3]
                    have h' : some (Json.num ('I' :: ['n', 'f', 'i', 'n', 'i', 't', 'y']),
                        cs1.drop 7) = some (v, r) := h
                    rw [Option.some_inj, Prod.mk.injEq] at h'
                    obtain ⟨rfl, rfl⟩ := h'
                    rw [h4]
                  · rw [if_neg htk] at h; exact Option.noConfusion h
                · rw [if_neg e5] at h ⊢
                  by_cases e6 : c = '"'
                  · rw [if_pos e6] at h ⊢
                    cases hsb : parseSB g cs1 with
                    | none => rw [hsb] at h; exact Option.noConfusion h
                    | some pr =>
                      obtain ⟨s2, r2⟩ := pr
                      rw [hsb] at h
                      have h' : some (Json.str s2, r2) = some (v, r) := h
                      rw [Option.some_inj, Prod.mk.injEq] at h'
                      obtain ⟨rfl, rfl⟩ := h'
                      rw [parseSB_ext t g cs1 s2 r2 hsb g' hg]
                  · rw [if_neg e6] at h ⊢
                    by_cases e7 : c = '['
                    · rw [if_pos e7] at h ⊢
                      cases hsk1 : skipWs cs1 with
                      | nil => rw [hsk1] at h; exact Option.noConfusion h
                      | cons d r0 =>
                        rw [hsk1] at h
                        rw [skipWs_append_cons hsk1 t]
                        simp only [] at h ⊢
                        by_cases hd : d = ']'
                        · rw [if_pos hd] at h ⊢
                          have h' : some (Json.arr [], r0) = some (v, r) := h
                          rw [Option.some_inj, Prod.mk.injEq] at h'
                          obtain ⟨rfl, rfl⟩ := h'
                          rfl
                        · rw [if_neg hd] at h ⊢
                          cases hv1 : parseValue g cs1 with
                          | none => rw [hv1] at h; exact Option.noConfusion h
                          | some pr =>
                            obtain ⟨v0, r1⟩ := pr
                            rw [hv1] at h
                            rw [ih cs1 v0 r1 hv1 g' hg]
                            simp only [] at h ⊢
                            cases hsk2 : skipWs r1 with
                            | nil => rw [hsk2] at h; exact Option.noConfusion h
                            | cons d1 r2 =>
                              rw [hsk2] at h
                              rw [skipWs_append_cons hsk2 t]
                              simp only [] at h ⊢
                              by_cases hd1 : d1 = ']'
                              · rw [if_pos hd1] at h ⊢
                                have h' : some (Json.arr [v0], r2) = some (v, r) := h
                                rw [Option.some_inj, Prod.mk.injEq] at h'
                                obtain ⟨rfl, rfl⟩ := h'
                                rfl
                              · rw [if_neg hd1] at h ⊢
                                by_cases hc1 : d1 = ','
                                · rw [if_pos hc1] at h ⊢
                                  cases hsk3 : skipWs r2 with
                                  | nil => rw [hsk3] at h; exact Option.noConfusion h
                                  | cons d2 rr =>
                                    rw [hsk3] at h
                                    rw [skipWs_append_cons hsk3 t]
                                    simp only [] at h ⊢
                                    by_cases hd2 : d2 = ']'
                                    · rw [if_pos hd2] at h; exact Option.noConfusion h
                                    · rw [if_neg hd2] at h ⊢
                                      cases hrec : parseValue g ('[' :: r2) with
                                      | none => rw [hrec] at h; exact Option.noConfusion h
                                      | some pr2 =>
                                        obtain ⟨v2, r3⟩ := pr2
                                        rw [hrec] at h
                                        rw [show ('[' : Char) :: (r2 ++ t) =
                                          ('[' :: r2) ++ t from rfl]
                                        rw [ih ('[' :: r2) v2 r3 hrec g' hg]
                                        cases v2 with
                                        | arr vs =>
                                          have h' : some (Json.arr (v0 :: vs), r3) =
                                              some (v, r) := h
                                          rw [Option.some_inj, Prod.mk.injEq] at h'
                                          obtain ⟨rfl, rfl⟩ := h'
                                          rfl
                                        | null => exact Option.noConfusion h
                                        | bool b => exact Option.noConfusion h
                                        | num l => exact Option.noConfusion h
                                        | str sl => exact Option.noConfusion h
                                        | obj kv => exact Option.noConfusion h
                                · rw [if_neg hc1] at h; exact Option.noConfusion h
                    · rw [if_neg e7] at h ⊢
                      by_cases e8 : c = '\x7b'
                      · rw [if_pos e8] at h ⊢
                        cases hsk1 : skipWs cs1 with
                        | nil => rw [hsk1] at h; exact Option.noConfusion h
                        | cons d r0 =>
                          rw [hsk1] at h
                          rw [skipWs_append_cons hsk1 t]
                          simp only [] at h ⊢
                          by_cases hd : d = '\x7d'
                          · rw [if_pos hd] at h ⊢
                            have h' : some (Json.obj [], r0) = some (v, r) := h
                            rw [Option.some_inj, Prod.mk.injEq] at h'
                            obtain ⟨rfl, rfl⟩ := h'
                            rfl
                          · rw [if_neg hd] at h ⊢
                            by_cases hq : d = '"'
                            · rw [if_pos hq] at h ⊢
                              cases hsb : parseSB g r0 with
                              | none => rw [hsb] at h; exact Option.noConfusion h
                              | some pr =>
                                obtain ⟨k, r1⟩ := pr
                                rw [hsb] at h
                                rw [parseSB_ext t g r0 k r1 hsb g' hg]
                                simp only [] at h ⊢
                                cases hsk2 : skipWs r1 with
                                | nil => rw [hsk2] at h; exact Option.noConfusion h
                                | cons d1 r2 =>
                                  rw [hsk2] at h
                                  rw [skipWs_append_cons hsk2 t]
                                  simp only [] at h ⊢
                                  by_cases hcol : d1 = ':'
                                  · rw [if_pos hcol] at h ⊢
                                    cases hv1 : parseValue g r2 with
                                    | none => rw [hv1] at h; exact Option.noConfusion h
                                    | some pr2 =>
                                      obtain ⟨v0, r3⟩ := pr2
                                      rw [hv1] at h
                                      rw [ih r2 v0 r3 hv1 g' hg]
                                      simp only [] at h ⊢
                                      cases hsk3 : skipWs r3 with
                                      | nil => rw [hsk3] at h; exact Option.noConfusion h
                                      | cons d3 r4 =>
                                        rw [hsk3] at h
                                        rw [skipWs_append_cons hsk3 t]
                                        simp only [] at h ⊢
                                        by_cases hd3 : d3 = '\x7d'
                                        · rw [if_pos hd3] at h ⊢
                                          have h' : some (Json.obj [(k, v0)], r4) =
                                              some (v, r) := h
                                          rw [Option.some_inj, Prod.mk.injEq] at h'
                                          obtain ⟨rfl, rfl⟩ := h'
                                          rfl
                                        · rw [if_neg hd3] at h ⊢
                                          by_cases hcm : d3 = ','
                                          · rw [if_pos hcm] at h ⊢
                                            cases hsk4 : skipWs r4 with
                                            | nil =>
                                              rw [hsk4] at h
                                              exact Option.noConfusion h
                                            | cons d4 rr =>
                                              rw [hsk4] at h
                                              rw [skipWs_append_cons hsk4 t]
                                              simp only [] at h ⊢
                                              by_cases hd4 : d4 = '\x7d'
                                              · rw [if_pos hd4] at h
                                                exact Option.noConfusion h
                                              · rw [if_neg hd4] at h ⊢
                                                cases hrec : parseValue g ('\x7b' :: r4) with
                                                | none =>
                                                  rw [hrec] at h
                                                  exact Option.noConfusion h
                                                | some pr3 =>
                                                  obtain ⟨v2, r5⟩ := pr3
                                                  rw [hrec] at h
                                                  rw [show ('\x7b' : Char) :: (r4 ++ t) =
                                                    ('\x7b' :: r4) ++ t from rfl]
                                                  rw [ih ('\x7b' :: r4) v2 r5 hrec g' hg]
                                                  cases v2 with
                                                  | obj kvs =>
                                                    have h' : some
                                                        (Json.obj ((k, v0) :: kvs), r5) =
                                                        some (v, r) := h
                                                    rw [Option.some_inj,
                                                      Prod.mk.injEq] at h'
                                                    obtain ⟨rfl, rfl⟩ := h'
                                                    rfl
                                                  | null => exact Option.noConfusion h
                                                  | bool b => exact Option.noConfusion h
                                                  | num l => exact Option.noConfusion h
                                                  | str sl => exact Option.noConfusion h
                                                  | arr xs => exact Option.noConfusion h
                                          · rw [if_neg hcm] at h
                                            exact Option.noConfusion h
                                  · rw [if_neg hcol] at h; exact Option.noConfusion h
                            · rw [if_neg hq] at h; exact Option.noConfusion h
                      · rw [if_neg e8] at h ⊢
                        by_cases e9 : c = '-'
                        · rw [if_pos e9] at h ⊢
                          cases cs1 with
                          | nil =>
                            simp only [] at h
                            cases hpn : parseNumber [c] with
                            | none => rw [hpn] at h; exact Option.noConfusion h
                            | some pr =>
                              obtain ⟨lex2, rN⟩ := pr
                              rw [hpn] at h
                              have h' : some (Json.num lex2, rN) = some (v, r) := h
                              rw [Option.some_inj, Prod.mk.injEq] at h'
                              obtain ⟨rfl, rfl⟩ := h'
                              simp only [List.nil_append]
                              cases t with
                              | nil =>
                                simp only [] at hpn ⊢
                                rw [hpn, List.append_nil]
                              | cons c2 t3 =>
                                have hc2 : isJsonWs c2 = true :=
                                  hws c2 (List.mem_cons_self c2 t3)
                                simp only []
                                rw [if_neg (by
                                  intro hI
                                  rw [hI] at hc2
                                  exact absurd hc2 (by decide))]
                                rw [show c :: c2 :: t3 = [c] ++ (c2 :: t3) from rfl]
                                rw [parseNumber_ext (c2 :: t3) hws [c] lex2 rN hpn]
                          | cons c2 cs2 =>
                            simp only [List.cons_append] at h ⊢
                            by_cases hI : c2 = 'I'
                            · rw [if_pos hI] at h ⊢
                              by_cases htk : cs2.take 7 = ['n', 'f', 'i', 'n', 'i', 't', 'y']
                              · rw [if_pos htk] at h
                                obtain ⟨h3, h4⟩ :=
                                  take_drop_append_of_take_eq (t := t) htk (by decide)
                                rw [if_pos h3]
                                have h' : some
                                    (Json.num ('-' :: 'I' ::
                                      ['n', 'f', 'i', 'n', 'i', 't', 'y']),
                                      cs2.drop 7) = some (v, r) := h
                                rw [Option.some_inj, Prod.mk.injEq] at h'
                                obtain ⟨rfl, rfl⟩ := h'
                                rw [h4]
                              · rw [if_neg htk] at h; exact Option.noConfusion h
                            · rw [if_neg hI] at h ⊢
                              cases hpn : parseNumber (c :: c2 :: cs2) with
                              | none => rw [hpn] at h; exact Option.noConfusion h
                              | some pr =>
                                obtain ⟨lex2, rN⟩ := pr
                                rw [hpn] at h
                                have h' : some (Json.num lex2, rN) = some (v, r) := h
                                rw [Option.some_inj, Prod.mk.injEq] at h'
                                obtain ⟨rfl, rfl⟩ := h'
                                rw [show c :: c2 :: (cs2 ++ t) =
                                  (c :: c2 :: cs2) ++ t from rfl]
                                rw [parseNumber_ext t hws (c :: c2 :: cs2) lex2 rN hpn]
                        · rw [if_neg e9] at h ⊢
                          by_cases e10 : c.isDigit
                          · rw [if_pos e10] at h ⊢
                            cases hpn : parseNumber (c :: cs1) with
                            | none => rw [hpn] at h; exact Option.noConfusion h
                            | some pr =>
                              obtain ⟨lex2, rN⟩ := pr
                              rw [hpn] at h
                              have h' : some (Json.num lex2, rN) = some (v, r) := h
                              rw [Option.some_inj, Prod.mk.injEq] at h'
                              obtain ⟨rfl, rfl⟩ := h'
                              rw [show c :: (cs1 ++ t) = (c :: cs1) ++ t from rfl]
                              rw [parseNumber_ext t hws (c :: cs1) lex2 rN hpn]
                          · rw [if_neg e10] at h; exact Option.noConfusion h

theorem parseJson_append_ws (s t : Chars) (hws : ∀ c ∈ t, isJsonWs c = true)
    (v : Json) (h : parseJson s = some v) : parseJson (s ++ t) = some v := by
  unfold parseJson at h ⊢
  cases hpv : parseValue (s.length + 1) s with
  | none => rw [hpv] at h; exact Option.noConfusion h
  | some pr =>
    obtain ⟨v0, r0⟩ := pr
    rw [hpv] at h
    have h2 : (if (skipWs r0).isEmpty then some v0 else none) = some v := h
    by_cases he : (skipWs r0).isEmpty
    · rw [if_pos he] at h2
      have hv : v0 = v := Option.some.inj h2
      subst hv
      have hnil : skipWs r0 = [] := by
        cases hsk : skipWs r0 with
        | nil => rfl
        | cons a l => rw [hsk] at he; simp at he
      have hext := parseValue_ext t hws (s.length + 1) s v0 r0 hpv ((s ++ t).length + 1)
        (by rw [List.length_append]; omega)
      rw [hext]
      exact (show (if (skipWs (r0 ++ t)).isEmpty then some v0 else none) = some v0 by
        rw [skipWs_nil_append hnil t, skipWs_ws_eq_nil hws]; rfl)
    · rw [if_neg he] at h2; exact Option.noConfusion h2

theorem parseValue_bq (f : Nat) (t1 : Chars) : parseValue f (bq :: t1) = none := by
  cases f with
  | zero => rw [parseValue]
  | succ g =>
    have hsk : skipWs (bq :: t1) = bq :: t1 := List.dropWhile_cons_of_neg (by decide)
    simp only [parseValue, hsk]
    rw [if_neg (by decide), if_neg (by decide), if_neg (by decide), if_neg (by decide),
      if_neg (by decide), if_neg (by decide), if_neg (by decide), if_neg (by decide),
      if_neg (by decide), if_neg (by decide)]

/-- A reply that starts with the ` ```json ` tag is never valid JSON:
`json.loads` fails on a leading backtick. -/
theorem parseJson_of_fenceTag (u : Chars) (h : fenceJsonTag.isPrefixOf u = true) :
    parseJson u = none := by
  cases u with
  | nil => rw [fenceJsonTag_eq] at h; simp [List.isPrefixOf] at h
  | cons a u1 =>
    rw [fenceJsonTag_eq] at h
    simp only [List.isPrefixOf, Bool.and_eq_true] at h
    obtain ⟨hba, -⟩ := h
    have ha : a = bq := (eq_of_beq hba).symm
    subst ha
    unfold parseJson
    rw [parseValue_bq]

/-- The fenced wrapping of a stripped payload is itself stripped: it
begins and ends with a backtick. -/
theorem pyStrip_fenced (s : Chars) :
    pyStrip (fenceJsonNl ++ s ++ endFence) = fenceJsonNl ++ s ++ endFence := by
  apply pyStrip_eq_self_of_ends
  · intro c hc
    rw [fenceJsonNl_eq] at hc
    simp only [List.append_assoc, List.cons_append, List.head?_cons,
      Option.some_inj] at hc
    subst hc
    decide
  · intro c hc
    rw [List.reverse_append, show endFence.reverse = bq :: bq :: bq :: '\n' :: [] by decide,
      List.cons_append, List.head?_cons, Option.some_inj] at hc
    subst hc
    decide

theorem fenceTag_prefix_fenced (s : Chars) :
    fenceJsonTag.isPrefixOf (fenceJsonNl ++ s ++ endFence) = true := by
  have : fenceJsonNl ++ s ++ endFence = fenceJsonTag ++ ('\n' :: (s ++ endFence)) := by
    rw [show fenceJsonNl = fenceJsonTag ++ ['\n'] by decide]
    simp
  rw [this]
  exact isPrefixOf_append_self _ _

/-- Core fence round-trip fact: a stripped, backtick-run-free reply
that parses as JSON normalizes identically with and without the
` ```json ` fencing. -/
theorem normalizeReply_fenced_eq (s : Chars) (v : Json)
    (hstrip : pyStrip s = s) (hbt : occurs fencePlain s = false)
    (hparse : parseJson s = some v) :
    normalizeReply (fenceJsonNl ++ s ++ endFence) = normalizeReply s := by
  have hnotag : fenceJsonTag.isPrefixOf s = false := by
    cases htag : fenceJsonTag.isPrefixOf s
    · rfl
    · rw [parseJson_of_fenceTag s htag] at hparse; exact Option.noConfusion hparse
  have hsu : strippedText s = s := by
    simp [strippedText, hstrip, hnotag]
  have hsf : strippedText (fenceJsonNl ++ s ++ endFence) = s ++ ['\n'] := by
    simp only [strippedText, pyStrip_fenced, fenceTag_prefix_fenced, if_true]
    exact fenceReplace_fenced s hbt
  have hparse2 : parseJson (s ++ ['\n']) = some v :=
    parseJson_append_ws s ['\n'] (by decide) v hparse
  unfold normalizeReply
  rw [hsf, hsu, hparse2, hparse]

/-- C7 (amended): for every stripped provider reply with no run of
three consecutive backticks that parses as a JSON object, wrapping it
as ` ```json\n{...}\n``` ` normalizes to exactly the same result as
the same reply without fencing. -/
theorem fenced_object_reply_normalizes_identically (s : Chars) (o : List (Chars × Json))
    (hstrip : pyStrip s = s) (hbt : occurs fencePlain s = false)
    (hparse : parseJson s = some (.obj o)) :
    normalizeReply (fenceJsonNl ++ s ++ endFence) = normalizeReply s :=
  normalizeReply_fenced_eq s (.obj o) hstrip hbt hparse

theorem fenced_object_reply_normalizes_identically_witness :
    normalizeReply (fenceJsonNl ++ "\x7b\"translated\": \"ok\"\x7d".toList ++ endFence) =
      normalizeReply "\x7b\"translated\": \"ok\"\x7d".toList :=
  fenced_object_reply_normalizes_identically "\x7b\"translated\": \"ok\"\x7d".toList
    [("translated".toList, .str "ok".toList)] (by rfl) (by decide) (by rfl)

/-- C7 (counterexample to the claim as stated): for a JSON object
reply whose string value contains three backticks, fencing changes the
normalization result — the fenced reply loses the backticks. -/
theorem fenced_backtick_reply_differs :
    normalizeReply "```json\n\x7b\"translated\": \"x```y\", \"terms\": []\x7d\n```".toList =
      .ok ("xy".toList, []) ∧
    normalizeReply "\x7b\"translated\": \"x```y\", \"terms\": []\x7d".toList =
      .ok ("x```y".toList, []) ∧
    ("xy".toList : Chars) ≠ "x```y".toList := by
  refine ⟨by rfl, by rfl, by decide⟩

/-- C6 (counterexample to the claim as stated): a fence *without* the
`json` language tag is not stripped; a valid JSON object wrapped in a
plain ` ``` ` fence fails the request with the parse-failure 500. -/
theorem untagged_fence_not_handled :
    translate_text ⟨"hi".toList, .to_pangyo⟩
        "```\n\x7b\"translated\": \"x\"\x7d\n```".toList = .error .parseError := by
  rfl

/-- C6 (amended): only fences opening with ` ```json ` are handled —
for those the request behaves exactly as with the unfenced reply; a
reply whose stripped text does not start with ` ```json ` is parsed
as-is, so any other fencing yields the parse-failure 500. -/
theorem fence_requires_json_tag :
    (∀ (req : TranslateRequest) (s : Chars) (v : Json),
      pyStrip s = s → occurs fencePlain s = false → parseJson s = some v →
      translate_text req (fenceJsonNl ++ s ++ endFence) = translate_text req s) ∧
    (∀ (req : TranslateRequest) (reply : Chars),
      fenceJsonTag.isPrefixOf (pyStrip reply) = false →
      parseJson (pyStrip reply) = none →
      validate req = none →
      translate_text req reply = .error .parseError) := by
  constructor
  · intro req s v h1 h2 h3
    unfold translate_text
    rw [normalizeReply_fenced_eq s v h1 h2 h3]
  · intro req reply hntag hpar hv
    have hs : strippedText reply = pyStrip reply := by
      simp [strippedText, hntag]
    unfold translate_text
    rw [hv]
    unfold normalizeReply
    rw [hs, hpar]

theorem fence_requires_json_tag_witness :
    translate_text ⟨"hi".toList, .to_pangyo⟩
        (fenceJsonNl ++ "\x7b\"translated\": \"v\"\x7d".toList ++ endFence) =
      translate_text ⟨"hi".toList, .to_pangyo⟩ "\x7b\"translated\": \"v\"\x7d".toList ∧
    translate_text ⟨"hi".toList, .to_korean⟩ "no json at all".toList =
      .error .parseError :=
  ⟨fence_requires_json_tag.1 ⟨"hi".toList, .to_pangyo⟩
      "\x7b\"translated\": \"v\"\x7d".toList
      (.obj [("translated".toList, .str "v".toList)]) (by rfl) (by decide) (by rfl),
   fence_requires_json_tag.2 ⟨"hi".toList, .to_korean⟩ "no json at all".toList
      (by rfl) (by rfl) (by rfl)⟩
